import Mathlib

/-!
Verification of the per-voxel numerical core of the depthmap-fusion data
class `fusionData` (src/src/inc/fusion.h).

Machine floats (`float`/`double`) are modelled as exact rationals `ℚ`
(exact real arithmetic for `projectUnitBall`, which takes a square root).
`size_t`/`uint`/`int` indices are modelled as `ℕ` (negative offsets such
as `x-1` only occur behind `x > 0` guards in the source).

The per-voxel histogram struct `histogram<_histBins>` and the sorted
insertion structure `sortedHist<_histBins>` live in the repository's
`helper_structs.h`, and the memory backend (`Host2DeviceCopy` etc.) in
`memory.h`; neither file is part of the sources provided, so those parts
are modelled from the specification (see the individual doc comments).
-/

namespace Fusion

/-- Model of the CUDA `float3` vector (component type abstracted so the
same shape serves the rational and the real development). -/
structure vec3 (α : Type) where
  x : α
  y : α
  z : α
deriving DecidableEq

/-- Componentwise dot product of two `vec3 ℚ`. -/
def dot3 (a b : vec3 ℚ) : ℚ := a.x * b.x + a.y * b.y + a.z * b.z

/-- Model of C's `roundf`: round to nearest integer, halfway cases away
from zero. -/
def roundf (q : ℚ) : ℤ := if 0 ≤ q then ⌊q + 1/2⌋ else ⌈q - 1/2⌉

/-!  ## Histogram model

Modelled from the spec: the struct `histogram<_histBins>` is defined in the
repository's `helper_structs.h`, which is not among the provided sources.
Per §3 each of the `_histBins` bins holds a non-negative integer count
(storage positions `0 … _histBins-1`, position `0` the "occluded" bin and
position `_histBins-1` the "empty" bin), and per §4.2 the public indexing
`operator()` is 1-based, with `first()`/`last()` the occluded/empty bins.
Counts are modelled as a total function `ℤ → ℕ` on storage positions, so
that an access the C code would make outside the bin array (e.g. the
1-based operator at index 0) is a well-defined phantom cell of the model
rather than undefined behaviour, and provably does not alias bins 0 and
above. -/

/-- Modelled from the spec: the 1-based `histogram::operator()(i)` (§4.2)
reading the count at storage position `i - 1`. -/
def histGet (h : ℤ → ℕ) (i : ℤ) : ℕ := h (i - 1)

/-- Increment of the count at storage position `pos` (the effect of `++`
on a bin reference). -/
def hIncrAt (h : ℤ → ℕ) (pos : ℤ) : ℤ → ℕ :=
  fun q => if q = pos then h q + 1 else h q

/-- Increment through the 1-based operator at index `i`, i.e. at storage
position `i - 1`. -/
def hIncrOp (h : ℤ → ℕ) (i : ℤ) : ℤ → ℕ := hIncrAt h (i - 1)

/-- Embedding of `fusionData::Wi` (fusion.h lines 530-537): starting from
`r = 0`, subtract the counts `h(j)` for `j = 1 … i` and add the counts
`h(j)` for `j = i+1 … _histBins`; `r` is a C `int`, modelled as `ℤ`. -/
def Wi (bins : ℕ) (h : ℤ → ℕ) (i : ℕ) : ℤ :=
  (∑ j ∈ Finset.Icc (i + 1) bins, (histGet h (j : ℤ) : ℤ))
    - ∑ j ∈ Finset.Icc 1 i, (histGet h (j : ℤ) : ℤ)

/-- Embedding of `fusionData::pi` (fusion.h lines 553-557):
`u + tau * lambda * Wi(i, x, y, z)`. -/
def pi (bins : ℕ) (h : ℤ → ℕ) (u : ℚ) (i : ℕ) (tau lambda : ℚ) : ℚ :=
  u + tau * lambda * (Wi bins h i : ℚ)

/-- Modelled from the spec: `sortedHist<_histBins>` is defined in the
repository's `helper_structs.h`, which is not among the provided sources.
Per §4.2 it is a sorted structure into which the proximal-step candidates
are inserted (its constructor receives the bin-center array, kept here as
a field), and its `median()` "must produce the exact median of the
generated candidate set (even count → the lower- or upper-median per a
fixed, documented tie-break)"; the upper median (index `length / 2`,
0-based, of the ascending ordering) is the fixed tie-break chosen here. -/
structure sortedHist where
  centers : List ℚ
  elems : List ℚ

/-- Modelled from the spec: `sortedHist::insert` places a value into the
sorted element list. -/
def sortedHist.insert (s : sortedHist) (val : ℚ) : sortedHist :=
  { s with elems := s.elems.orderedInsert (· ≤ ·) val }

/-- Modelled from the spec: `sortedHist::median` returns the middle
element (upper median) of the sorted inserted values. -/
def sortedHist.median (s : sortedHist) : ℚ :=
  s.elems.getD (s.elems.length / 2) 0

/-!  ## Bin parameters (fusion.h lines 440-455 and 717-727) -/

/-- Embedding of the final state of the `_bincenters` array after
`binParams()` (fusion.h lines 717-727).  The writes happen in the order
`_bincenters[0] = -1`, then `_bincenters[_histBins-1] = 1`, then the loop
over `i = 1 … _histBins-2`; the `if` branches below are ordered so that a
later write wins at a position written more than once.  The arithmetic
`_histBins - 3` is C `int` arithmetic after integer promotion, hence the
cast subtraction `(bins : ℚ) - 3` (not truncated `ℕ` subtraction); for
`bins = 3` the C code divides `0/0` producing NaN, which the `ℚ` model
renders as the Lean convention `x / 0 = 0` (the division-by-zero itself is
tracked separately by `binParamsDivisors`). -/
def binCentersArr (bins : ℕ) (i : ℕ) : ℚ :=
  if 1 ≤ i ∧ i ≤ bins - 2 then 2 * ((i : ℚ) - 1) / ((bins : ℚ) - 3) - 1
  else if i = bins - 1 then 1
  else if i = 0 then -1
  else 0

/-- Embedding of `_binstep` as set by `binParams()` (fusion.h line 726):
`2 / float(_histBins - 3)`. -/
def binStep (bins : ℕ) : ℚ := 2 / ((bins : ℚ) - 3)

/-- Embedding of `fusionData::binCenter` (fusion.h lines 440-445): the
stored center for `binindex < _histBins`, else `0`. -/
def binCenter (bins : ℕ) (binindex : ℕ) : ℚ :=
  if binindex < bins then binCentersArr bins binindex else 0

/-- The multiset of divisors used by `binParams()` (fusion.h lines
717-727): one division by `float(_histBins - 3)` per loop iteration
`i = 1 … _histBins-2` (there are `_histBins - 2` of them) and one for
`_binstep`. -/
def binParamsDivisors (bins : ℕ) : List ℚ :=
  List.replicate (bins - 2) ((bins : ℚ) - 3) ++ [(bins : ℚ) - 3]

/-!  ## Histogram update (fusion.h lines 608-630) -/

/-- The effective threshold of `updateHist`: fusion.h line 612 forces
`threshold = 0` when `_histBins == 2`. -/
def effThreshold (bins : ℕ) (threshold : ℚ) : ℚ :=
  if bins = 2 then 0 else threshold

/-- Embedding of `fusionData::updateHist` (fusion.h lines 608-630) acting
on the addressed voxel's histogram: with `sd = voxdepth - depth` and the
effective threshold `t`, `sd >= t` increments `last()` (storage position
`_histBins - 1`), else `sd <= -t` increments `first()` (storage position
`0`), else the 1-based operator cell at index
`roundf((sd + t) / (2 * t) * (_histBins - 3))` is incremented
(`_histBins - 3` is C `int` arithmetic after integer promotion, hence the
cast subtraction). -/
def updateHist (bins : ℕ) (h : ℤ → ℕ) (voxdepth depth threshold : ℚ) :
    ℤ → ℕ :=
  if effThreshold bins threshold ≤ voxdepth - depth then
    hIncrAt h ((bins : ℤ) - 1)
  else if voxdepth - depth ≤ -effThreshold bins threshold then hIncrAt h 0
  else hIncrOp h (roundf ((voxdepth - depth + effThreshold bins threshold)
    / (2 * effThreshold bins threshold) * ((bins : ℚ) - 3)))

/-- The storage position of the single cell incremented by `updateHist`
with the given parameters. -/
def targetBin (bins : ℕ) (voxdepth depth threshold : ℚ) : ℤ :=
  if effThreshold bins threshold ≤ voxdepth - depth then (bins : ℤ) - 1
  else if voxdepth - depth ≤ -effThreshold bins threshold then 0
  else roundf ((voxdepth - depth + effThreshold bins threshold)
    / (2 * effThreshold bins threshold) * ((bins : ℚ) - 3)) - 1

/-- The divisors used by one `updateHist` call: the near-surface branch
divides by `2.f * threshold`, the other branches divide by nothing. -/
def updateHistDivisors (bins : ℕ) (voxdepth depth threshold : ℚ) :
    List ℚ :=
  if effThreshold bins threshold ≤ voxdepth - depth then []
  else if voxdepth - depth ≤ -effThreshold bins threshold then []
  else [2 * effThreshold bins threshold]

/-!  ## Voxel grid -/

/-- Embedding of `fusionvoxel<_histBins>` (declared in `structs.h`, used
throughout fusion.h): primal `u`, helper `v`, dual vector `p` and the
per-voxel histogram (§3 of the spec). -/
structure fusionvoxel where
  u : ℚ
  v : ℚ
  p : vec3 ℚ
  h : ℤ → ℕ

/-- Embedding of the `fusionData<_histBins>` state: the template
parameter `_histBins`, the dimensions `_w`, `_h`, `_d`, and the voxel
store addressed by flat index (the byte pitch of the CUDA layout is not
modelled; `_voxel[n]` is the voxel with flat index `n`). -/
structure fusionData where
  bins : ℕ
  w : ℕ
  h : ℕ
  d : ℕ
  voxel : ℕ → fusionvoxel

namespace fusionData

/-- The flat index `nx + ny*_w + nz*_w*_h` used by every element accessor
(fusion.h lines 281-429). -/
def idx (g : fusionData) (nx ny nz : ℕ) : ℕ :=
  nx + ny * g.w + nz * g.w * g.h

/-- Embedding of the accessor `u(nx, ny, nz)` (fusion.h lines 281-285). -/
def uAt (g : fusionData) (nx ny nz : ℕ) : ℚ := (g.voxel (g.idx nx ny nz)).u

/-- Embedding of the accessor `v(nx, ny, nz)` (fusion.h lines 313-317). -/
def vAt (g : fusionData) (nx ny nz : ℕ) : ℚ := (g.voxel (g.idx nx ny nz)).v

/-- Embedding of the accessor `p(nx, ny, nz)` (fusion.h lines 345-349). -/
def pAt (g : fusionData) (nx ny nz : ℕ) : vec3 ℚ :=
  (g.voxel (g.idx nx ny nz)).p

/-- Embedding of the accessor `h(nx, ny, nz)` (fusion.h lines 377-381). -/
def hAt (g : fusionData) (nx ny nz : ℕ) : ℤ → ℕ :=
  (g.voxel (g.idx nx ny nz)).h

/-- Embedding of `fusionData::gradUFwd` (fusion.h lines 468-476): forward
differences of `u`, each component left at `0` at the upper boundary of
its axis (`x < _w - 1` etc.; the subtraction is on `size_t`, which for a
positive dimension agrees with the truncated `ℕ` subtraction used here). -/
def gradUFwd (g : fusionData) (x y z : ℕ) : vec3 ℚ :=
  { x := if x < g.w - 1 then g.uAt (x+1) y z - g.uAt x y z else 0
    y := if y < g.h - 1 then g.uAt x (y+1) z - g.uAt x y z else 0
    z := if z < g.d - 1 then g.uAt x y (z+1) - g.uAt x y z else 0 }

/-- Embedding of `fusionData::gradVFwd` (fusion.h lines 488-496): same as
`gradUFwd` for the helper field `v`. -/
def gradVFwd (g : fusionData) (x y z : ℕ) : vec3 ℚ :=
  { x := if x < g.w - 1 then g.vAt (x+1) y z - g.vAt x y z else 0
    y := if y < g.h - 1 then g.vAt x (y+1) z - g.vAt x y z else 0
    z := if z < g.d - 1 then g.vAt x y (z+1) - g.vAt x y z else 0 }

/-- Embedding of `fusionData::divPBwd` (fusion.h lines 508-517): the sum
of the in-voxel components of `p` minus each axis's backward neighbour
component, the backward term omitted at index `0` of its axis. -/
def divPBwd (g : fusionData) (x y z : ℕ) : ℚ :=
  (g.pAt x y z).x + (g.pAt x y z).y + (g.pAt x y z).z
    - (if 0 < x then (g.pAt (x-1) y z).x else 0)
    - (if 0 < y then (g.pAt x (y-1) z).y else 0)
    - (if 0 < z then (g.pAt x y (z-1)).z else 0)

/-- Embedding of the method `fusionData::proxHist` (fusion.h lines
572-579): build a `sortedHist` from `_bincenters`, insert `p0 = u`, insert
`pi(u, j, x, y, z, tau, lambda)` for `j = 1 … _histBins`, return the
median. -/
def proxHist (g : fusionData) (u : ℚ) (x y z : ℕ) (tau lambda : ℚ) : ℚ :=
  (((List.range g.bins).map (· + 1)).foldl
      (fun s j => s.insert (pi g.bins (g.hAt x y z) u j tau lambda))
      (sortedHist.insert
        { centers := (List.range g.bins).map (binCentersArr g.bins)
          elems := [] } u)).median

/-- Embedding of the state change of `fusionData::updateHist` (fusion.h
lines 608-630) on the whole store: only the histogram of the voxel at
flat index `idx x y z` is rewritten. -/
def updateHistG (g : fusionData) (x y z : ℕ)
    (voxdepth depth threshold : ℚ) : fusionData :=
  { g with voxel := fun n =>
      if n = g.idx x y z then
        { g.voxel n with
          h := updateHist g.bins (g.voxel n).h voxdepth depth threshold }
      else g.voxel n }

end fusionData

/-- `⟨∇u, p⟩`: the sum over all voxels of the dot product of the forward
gradient of `u` with the dual field `p` (the pairing of §4.3). -/
def dotGradUP (g : fusionData) : ℚ :=
  ∑ z ∈ Finset.range g.d, ∑ y ∈ Finset.range g.h, ∑ x ∈ Finset.range g.w,
    dot3 (g.gradUFwd x y z) (g.pAt x y z)

/-- `⟨u, div p⟩`: the sum over all voxels of `u` times the backward
divergence of `p` (the pairing of §4.3). -/
def sumUDivP (g : fusionData) : ℚ :=
  ∑ z ∈ Finset.range g.d, ∑ y ∈ Finset.range g.h, ∑ x ∈ Finset.range g.w,
    g.uAt x y z * g.divPBwd x y z

/-!  ## Unit-ball projection (fusion.h lines 589-593), over `ℝ` -/

/-- The Euclidean norm `sqrt(x*x + y*y + z*z)` computed inside
`projectUnitBall`. -/
noncomputable def norm3 (v : vec3 ℝ) : ℝ :=
  Real.sqrt (v.x * v.x + v.y * v.y + v.z * v.z)

/-- Embedding of `fusionData::projectUnitBall` (fusion.h lines 589-593):
`x / fmaxf(1.f, sqrt(x.x*x.x + x.y*x.y + x.z*x.z))`, the division applied
componentwise. -/
noncomputable def projectUnitBall (v : vec3 ℝ) : vec3 ℝ :=
  let n := max 1 (Real.sqrt (v.x * v.x + v.y * v.y + v.z * v.z))
  { x := v.x / n, y := v.y / n, z := v.z / n }

/-!  ## Host/device transfer (fusion.h lines 641-662) -/

/-- Modelled from the spec: the memory backend of `memory.h` (not among
the provided sources) supplies, per §6, three copy primitives — host to
device, device to host, host to host — each taking destination pointer
and pitch, source pointer and pitch, and the extents `(w, h, d)`, and
returning a backend status code.  Pointer and status types are abstract
parameters. -/
structure MemBackend (E P : Type) where
  Host2DeviceCopy : P → ℕ → P → ℕ → ℕ → ℕ → ℕ → E
  Device2HostCopy : P → ℕ → P → ℕ → ℕ → ℕ → ℕ → E
  Host2HostCopy : P → ℕ → P → ℕ → ℕ → ℕ → ℕ → E

/-- Embedding of `fusionData::copyFrom` (fusion.h lines 641-646):
`Host2DeviceCopy(_voxel, _pitch, data, npitch, _w, _h, _d)` when
`_onDevice`, else the same arguments through `Host2HostCopy`; the
backend's status code is returned unchanged. -/
def copyFrom {E P : Type} (onDevice : Bool) (be : MemBackend E P)
    (voxelPtr : P) (pitch : ℕ) (data : P) (npitch : ℕ) (w h d : ℕ) : E :=
  if onDevice then be.Host2DeviceCopy voxelPtr pitch data npitch w h d
  else be.Host2HostCopy voxelPtr pitch data npitch w h d

/-- Embedding of `fusionData::copyTo` (fusion.h lines 657-662):
`Device2HostCopy(data, npitch, _voxel, _pitch, _w, _h, _d)` when
`_onDevice`, else the same arguments through `Host2HostCopy`; the
backend's status code is returned unchanged. -/
def copyTo {E P : Type} (onDevice : Bool) (be : MemBackend E P)
    (voxelPtr : P) (pitch : ℕ) (data : P) (npitch : ℕ) (w h d : ℕ) : E :=
  if onDevice then be.Device2HostCopy data npitch voxelPtr pitch w h d
  else be.Host2HostCopy data npitch voxelPtr pitch w h d

/-!  ## Claim-side definitions and concrete instances -/

/-- The candidate set of §4.2, written from the claim's words: `p_0 = u`
followed by `p_i = u + tau * lambda * W_i` for `i = 1 … bins`. -/
def candidates (bins : ℕ) (h : ℤ → ℕ) (u tau lambda : ℚ) : List ℚ :=
  u :: (List.range bins).map (fun j => u + tau * lambda * (Wi bins h (j + 1) : ℚ))

/-- The exact median of a finite list of rationals: the element at
0-based position `length / 2` of the ascending ordering (the upper median
when the length is even — the same fixed tie-break as
`sortedHist.median`). -/
def listMedian (l : List ℚ) : ℚ :=
  (l.insertionSort (· ≤ ·)).getD (l.length / 2) 0

/-- A voxel with all fields zero. -/
def zeroVoxel : fusionvoxel := ⟨0, 0, ⟨0, 0, 0⟩, fun _ => 0⟩

/-- The 4×4×4, 10-bin all-zero store of the spec's concrete scenario
(§8). -/
def gridZero : fusionData := ⟨10, 4, 4, 4, fun _ => zeroVoxel⟩

/-- A 1×1×1 store whose single voxel has `u = 1` and `p = (1,1,1)`. -/
def gridOne : fusionData :=
  ⟨2, 1, 1, 1, fun _ => ⟨1, 0, ⟨1, 1, 1⟩, fun _ => 0⟩⟩

/-- A 2×2×2 store with distinct nonzero field values at every voxel. -/
def gridVals : fusionData :=
  ⟨4, 2, 2, 2, fun n =>
    ⟨(n : ℚ) + 1, 2 * (n : ℚ) + 1,
     ⟨(n : ℚ) + 2, (n : ℚ) + 3, (n : ℚ) + 5⟩, fun _ => 0⟩⟩

/-- A 2×1×1 store whose dual field vanishes on each axis's upper
boundary (`p.x` is nonzero only at `x = 0`). -/
def gridW2 : fusionData :=
  ⟨2, 2, 1, 1, fun n =>
    ⟨(n : ℚ) + 1, 0, ⟨if n = 0 then 5 else 0, 0, 0⟩, fun _ => 0⟩⟩

/-- A backend whose three primitives return the distinct status codes
`1`, `2`, `3`. -/
def beNum : MemBackend ℕ ℕ :=
  ⟨fun _ _ _ _ _ _ _ => 1, fun _ _ _ _ _ _ _ => 2, fun _ _ _ _ _ _ _ => 3⟩

/-!  ## Bin-parameter lemmas -/

theorem binCentersArr_zero (bins : ℕ) (hb : 2 ≤ bins) :
    binCentersArr bins 0 = -1 := by
  have h1 : ¬ (1 ≤ 0 ∧ 0 ≤ bins - 2) := by omega
  have h2 : 0 ≠ bins - 1 := by omega
  rw [binCentersArr, if_neg h1, if_neg h2, if_pos rfl]

theorem binCentersArr_last (bins : ℕ) (hb : 2 ≤ bins) :
    binCentersArr bins (bins - 1) = 1 := by
  have h1 : ¬ (1 ≤ bins - 1 ∧ bins - 1 ≤ bins - 2) := by omega
  rw [binCentersArr, if_neg h1, if_pos rfl]

theorem binCentersArr_interior (bins i : ℕ) (h1 : 1 ≤ i) (h2 : i ≤ bins - 2) :
    binCentersArr bins i = 2 * ((i : ℚ) - 1) / ((bins : ℚ) - 3) - 1 := by
  rw [binCentersArr, if_pos ⟨h1, h2⟩]

theorem binsQ_pos (bins : ℕ) (hb : 4 ≤ bins) : (0 : ℚ) < (bins : ℚ) - 3 := by
  have h4 : (4 : ℚ) ≤ (bins : ℚ) := by exact_mod_cast hb
  linarith

theorem binCentersArr_bounds (bins : ℕ) (hb : 4 ≤ bins) (k : ℕ)
    (hk : k < bins) :
    -1 ≤ binCentersArr bins k ∧ binCentersArr bins k ≤ 1 := by
  have hb3 := binsQ_pos bins hb
  rcases eq_or_ne k (bins - 1) with rfl | hk1
  · rw [binCentersArr_last bins (by omega)]; norm_num
  rcases eq_or_ne k 0 with rfl | hk0
  · rw [binCentersArr_zero bins (by omega)]; norm_num
  have h1 : 1 ≤ k := by omega
  have h2 : k ≤ bins - 2 := by omega
  rw [binCentersArr_interior bins k h1 h2]
  have hkQ : (1 : ℚ) ≤ (k : ℚ) := by exact_mod_cast h1
  have hkQ2 : (k : ℚ) + 2 ≤ (bins : ℚ) := by
    have hn : k + 2 ≤ bins := by omega
    exact_mod_cast hn
  constructor
  · have hnum : (0 : ℚ) ≤ 2 * ((k : ℚ) - 1) := by linarith
    have hdiv := div_nonneg hnum (le_of_lt hb3)
    linarith
  · have hdiv : 2 * ((k : ℚ) - 1) / ((bins : ℚ) - 3) ≤ 2 :=
      (div_le_iff₀ hb3).mpr (by linarith)
    linarith

theorem binCentersArr_mono (bins : ℕ) (hb : 4 ≤ bins) (i j : ℕ)
    (hij : i ≤ j) (hj : j < bins) :
    binCentersArr bins i ≤ binCentersArr bins j := by
  have hb3 := binsQ_pos bins hb
  rcases eq_or_ne j (bins - 1) with rfl | hj1
  · rw [binCentersArr_last bins (by omega)]
    exact (binCentersArr_bounds bins hb i (by omega)).2
  rcases eq_or_ne i 0 with rfl | hi0
  · rw [binCentersArr_zero bins (by omega)]
    exact (binCentersArr_bounds bins hb j hj).1
  have h1i : 1 ≤ i := by omega
  have h2j : j ≤ bins - 2 := by omega
  have h2i : i ≤ bins - 2 := by omega
  have h1j : 1 ≤ j := by omega
  rw [binCentersArr_interior bins i h1i h2i,
    binCentersArr_interior bins j h1j h2j]
  have hc : (i : ℚ) ≤ (j : ℚ) := by exact_mod_cast hij
  have hmul := mul_le_mul_of_nonneg_right
    (show 2 * ((i : ℚ) - 1) ≤ 2 * ((j : ℚ) - 1) by linarith)
    (inv_nonneg.mpr (le_of_lt hb3))
  rw [div_eq_mul_inv, div_eq_mul_inv]
  linarith

theorem binCentersArr_strictMono (bins : ℕ) (hb : 4 ≤ bins) (i j : ℕ)
    (h1i : 1 ≤ i) (hij : i < j) (h2j : j ≤ bins - 2) :
    binCentersArr bins i < binCentersArr bins j := by
  have hb3 := binsQ_pos bins hb
  have h2i : i ≤ bins - 2 := by omega
  have h1j : 1 ≤ j := by omega
  rw [binCentersArr_interior bins i h1i h2i,
    binCentersArr_interior bins j h1j h2j]
  have hc : (i : ℚ) < (j : ℚ) := by exact_mod_cast hij
  have hmul := mul_lt_mul_of_pos_right
    (show 2 * ((i : ℚ) - 1) < 2 * ((j : ℚ) - 1) by linarith)
    (inv_pos.mpr hb3)
  rw [div_eq_mul_inv, div_eq_mul_inv]
  linarith

/-- C10: `binCenter` is total over all unsigned bin indices: for
`binindex ≥ _histBins` it returns `0` instead of reading outside the
`_bincenters` array, and for `binindex < _histBins` it returns the stored
center. -/
theorem binCenter_total (bins binindex : ℕ) :
    (bins ≤ binindex → binCenter bins binindex = 0) ∧
    (binindex < bins →
      binCenter bins binindex = binCentersArr bins binindex) := by
  constructor
  · intro hle
    rw [binCenter, if_neg (Nat.not_lt.mpr hle)]
  · intro hlt
    rw [binCenter, if_pos hlt]

theorem binCenter_total_witness :
    binCenter 4 7 = 0 ∧ binCenter 4 2 = binCentersArr 4 2 :=
  ⟨(binCenter_total 4 7).1 (by norm_num),
   (binCenter_total 4 2).2 (by norm_num)⟩

/-- C5 counterexample: at `_histBins = 4` the two lowest bin centers
coincide (`binCenter 0 = binCenter 1 = -1`), so the sequence of bin
centers is not strictly increasing in the bin index. -/
theorem binCenter_not_strict :
    binCenter 4 0 = binCenter 4 1 ∧ ¬ binCenter 4 0 < binCenter 4 1 := by
  constructor
  · rw [binCenter, if_pos (by norm_num), binCenter, if_pos (by norm_num),
      binCentersArr_zero 4 (by norm_num),
      binCentersArr_interior 4 1 (by norm_num) (by norm_num)]
    norm_num
  · rw [binCenter, if_pos (by norm_num), binCenter, if_pos (by norm_num),
      binCentersArr_zero 4 (by norm_num),
      binCentersArr_interior 4 1 (by norm_num) (by norm_num)]
    norm_num

/-- C5 (amended): for every `_histBins ≥ 4`, after construction
`binCenter 0 = -1`, `binCenter (_histBins-1) = +1`, and
`binStep = 2/(_histBins-3)`; the centers are monotone non-decreasing in
the bin index and strictly increasing on the interior index range
`1 … _histBins-2`, but not strictly increasing overall: the two lowest
centers are both `-1` and the two highest both `+1`. -/
theorem binParams_props (bins : ℕ) (hb : 4 ≤ bins) :
    binCenter bins 0 = -1 ∧
    binCenter bins (bins - 1) = 1 ∧
    binStep bins = 2 / ((bins : ℚ) - 3) ∧
    (∀ i j : ℕ, i ≤ j → j < bins → binCenter bins i ≤ binCenter bins j) ∧
    (∀ i j : ℕ, 1 ≤ i → i < j → j ≤ bins - 2 →
      binCenter bins i < binCenter bins j) ∧
    binCenter bins 1 = binCenter bins 0 ∧
    binCenter bins (bins - 2) = binCenter bins (bins - 1) := by
  have hb3 := binsQ_pos bins hb
  have e0 : binCenter bins 0 = binCentersArr bins 0 := by
    rw [binCenter, if_pos (by omega)]
  have e1 : binCenter bins 1 = binCentersArr bins 1 := by
    rw [binCenter, if_pos (by omega)]
  have eL : binCenter bins (bins - 1) = binCentersArr bins (bins - 1) := by
    rw [binCenter, if_pos (by omega)]
  have eL2 : binCenter bins (bins - 2) = binCentersArr bins (bins - 2) := by
    rw [binCenter, if_pos (by omega)]
  refine ⟨?_, ?_, rfl, ?_, ?_, ?_, ?_⟩
  · rw [e0, binCentersArr_zero bins (by omega)]
  · rw [eL, binCentersArr_last bins (by omega)]
  · intro i j hij hj
    rw [binCenter, if_pos (by omega), binCenter, if_pos hj]
    exact binCentersArr_mono bins hb i j hij hj
  · intro i j h1i hij h2j
    rw [binCenter, if_pos (by omega), binCenter, if_pos (by omega)]
    exact binCentersArr_strictMono bins hb i j h1i hij h2j
  · rw [e0, e1, binCentersArr_zero bins (by omega),
      binCentersArr_interior bins 1 (by omega) (by omega)]
    norm_num
  · rw [eL, eL2, binCentersArr_last bins (by omega),
      binCentersArr_interior bins (bins - 2) (by omega) (by omega)]
    have hcast : ((bins - 2 : ℕ) : ℚ) = (bins : ℚ) - 2 := by
      have hn : 2 ≤ bins := by omega
      push_cast [hn]
      ring
    rw [hcast]
    have hne : ((bins : ℚ) - 3) ≠ 0 := ne_of_gt hb3
    field_simp
    ring

theorem binParams_props_witness :
    binCenter 5 0 = -1 ∧ binCenter 5 4 = 1 ∧ binStep 5 = 1 ∧
    binCenter 5 2 < binCenter 5 3 := by
  have h := binParams_props 5 (by norm_num)
  refine ⟨h.1, h.2.1, ?_, ?_⟩
  · rw [h.2.2.1]; norm_num
  · exact h.2.2.2.2.1 2 3 (by norm_num) (by norm_num) (by norm_num)

/-!  ## Degenerate bin counts and histogram update -/

/-- C6 counterexample: for `_histBins = 3` the bin-parameter computation
performs divisions whose divisor `float(_histBins - 3)` is `0` (the
single interior center becomes `0/0` and the bin step `2/0`). -/
theorem binParams_divides_by_zero_at_three :
    (0 : ℚ) ∈ binParamsDivisors 3 := by
  norm_num [binParamsDivisors, List.replicate]

/-- C6 (amended): no zero-divisor division happens for `_histBins == 2`
(the divisor `float(_histBins - 3)` is `-1` by integer promotion), and
`updateHist` never divides by a zero divisor for any bin count (its only
division, in the near-surface branch, is by `2·threshold`, and that
branch forces `threshold > 0`); for `_histBins == 2` the update folds to
a binary occluded/empty split.  For `_histBins == 3`, however,
`binParams` does divide by zero (see the counterexample). -/
theorem degenerate_bins_safe :
    (∀ q ∈ binParamsDivisors 2, q ≠ 0) ∧
    (∀ (bins : ℕ) (voxdepth depth threshold : ℚ),
      ∀ q ∈ updateHistDivisors bins voxdepth depth threshold, q ≠ 0) ∧
    (∀ (h : ℤ → ℕ) (voxdepth depth threshold : ℚ),
      updateHist 2 h voxdepth depth threshold = hIncrAt h 1 ∨
      updateHist 2 h voxdepth depth threshold = hIncrAt h 0) := by
  refine ⟨?_, ?_, ?_⟩
  · intro q hq
    have : q = (2 : ℚ) - 3 := by
      simpa [binParamsDivisors] using hq
    rw [this]; norm_num
  · intro bins vd dep thr q hq
    rw [updateHistDivisors] at hq
    split_ifs at hq with h1 h2
    · exact absurd hq (List.not_mem_nil q)
    · exact absurd hq (List.not_mem_nil q)
    · have hq2 : q = 2 * effThreshold bins thr := by simpa using hq
      have hlt1 : vd - dep < effThreshold bins thr := lt_of_not_le h1
      have hlt2 : -effThreshold bins thr < vd - dep := lt_of_not_le h2
      have hpos : 0 < effThreshold bins thr := by linarith
      rw [hq2]
      exact ne_of_gt (by linarith)
  · intro h vd dep thr
    have ht : effThreshold 2 thr = 0 := by rw [effThreshold, if_pos rfl]
    by_cases h0 : effThreshold 2 thr ≤ vd - dep
    · left
      rw [updateHist, if_pos h0]
      norm_num
    · right
      rw [updateHist, if_neg h0, if_pos]
      rw [ht]
      rw [ht] at h0
      linarith [lt_of_not_le h0]

theorem degenerate_bins_safe_witness :
    ((2 : ℚ) - 3 ≠ 0) ∧ ((2 * effThreshold 4 1 : ℚ) ≠ 0) ∧
    (updateHist 2 (fun _ => 0) 1 0 5 = hIncrAt (fun _ => 0) 1 ∨
     updateHist 2 (fun _ => 0) 1 0 5 = hIncrAt (fun _ => 0) 0) := by
  refine ⟨?_, ?_, ?_⟩
  · exact degenerate_bins_safe.1 ((2 : ℚ) - 3)
      (by norm_num [binParamsDivisors, List.replicate])
  · exact degenerate_bins_safe.2.1 4 0 0 1 (2 * effThreshold 4 1)
      (by norm_num [updateHistDivisors, effThreshold])
  · exact degenerate_bins_safe.2.2 (fun _ => 0) 1 0 5

/-- C2: `updateHist` computes `sd = voxelDepth - observedDepth`, forces
the threshold to `0` when `_histBins == 2`, increments the "empty" (last)
bin when `sd >= threshold`, increments the "occluded" (first) bin when
`sd <= -threshold`, and otherwise increments the histogram cell at
operator index `round((sd+threshold)/(2·threshold)·(_histBins-3))`; both
boundary comparisons are inclusive: `sd == threshold` routes to "empty"
and (for a positive threshold) `sd == -threshold` routes to "occluded". -/
theorem updateHist_cases (bins : ℕ) (h : ℤ → ℕ)
    (voxdepth depth threshold sd t : ℚ)
    (hsd : sd = voxdepth - depth) (ht : t = effThreshold bins threshold) :
    (bins = 2 → t = 0) ∧
    (t ≤ sd →
      updateHist bins h voxdepth depth threshold
        = hIncrAt h ((bins : ℤ) - 1)) ∧
    (¬ t ≤ sd → sd ≤ -t →
      updateHist bins h voxdepth depth threshold = hIncrAt h 0) ∧
    (-t < sd → sd < t →
      updateHist bins h voxdepth depth threshold
        = hIncrOp h (roundf ((sd + t) / (2 * t) * ((bins : ℚ) - 3)))) ∧
    (sd = t →
      updateHist bins h voxdepth depth threshold
        = hIncrAt h ((bins : ℤ) - 1)) ∧
    (0 < t → sd = -t →
      updateHist bins h voxdepth depth threshold = hIncrAt h 0) := by
  subst hsd ht
  refine ⟨?_, ?_, ?_, ?_, ?_, ?_⟩
  · intro hb2
    rw [effThreshold, if_pos hb2]
  · intro h1
    rw [updateHist, if_pos h1]
  · intro h1 h2
    rw [updateHist, if_neg h1, if_pos h2]
  · intro h1 h2
    rw [updateHist, if_neg (not_le.mpr h2), if_neg (not_le.mpr h1)]
  · intro h1
    rw [updateHist, if_pos (le_of_eq h1.symm)]
  · intro h1 h2
    have hn : ¬ effThreshold bins threshold ≤ voxdepth - depth := by
      rw [h2]; intro hc; linarith
    rw [updateHist, if_neg hn, if_pos (le_of_eq h2)]

theorem updateHist_cases_witness :
    updateHist 10 (fun _ => 0) 1 (1/2) (1/5)
      = hIncrAt (fun _ => 0) ((10 : ℤ) - 1) :=
  (updateHist_cases 10 (fun _ => 0) 1 (1/2) (1/5) (1 - 1/2)
    (effThreshold 10 (1/5)) rfl rfl).2.1
    (by rw [effThreshold]; norm_num)

/-!  ## Frame properties of the histogram update -/

theorem hIncrAt_self (h : ℤ → ℕ) (pos : ℤ) :
    hIncrAt h pos pos = h pos + 1 := by
  simp [hIncrAt]

theorem hIncrAt_ne (h : ℤ → ℕ) (pos q : ℤ) (hq : q ≠ pos) :
    hIncrAt h pos q = h q := by
  simp [hIncrAt, hq]

/-- Every branch of `updateHist` is the increment of the single storage
cell `targetBin`. -/
theorem updateHist_eq_incr (bins : ℕ) (h : ℤ → ℕ)
    (voxdepth depth threshold : ℚ) :
    updateHist bins h voxdepth depth threshold
      = hIncrAt h (targetBin bins voxdepth depth threshold) := by
  rw [updateHist, targetBin]
  split_ifs <;> rfl

theorem updateHistG_voxel_at (g : fusionData) (x y z : ℕ)
    (vd dep thr : ℚ) :
    (g.updateHistG x y z vd dep thr).voxel (g.idx x y z)
      = { g.voxel (g.idx x y z) with
          h := hIncrAt (g.voxel (g.idx x y z)).h
            (targetBin g.bins vd dep thr) } := by
  show (if g.idx x y z = g.idx x y z then _ else _) = _
  rw [if_pos rfl, updateHist_eq_incr]

theorem updateHistG_voxel_ne (g : fusionData) (x y z : ℕ)
    (vd dep thr : ℚ) (n : ℕ) (hn : n ≠ g.idx x y z) :
    (g.updateHistG x y z vd dep thr).voxel n = g.voxel n := by
  show (if n = g.idx x y z then _ else _) = _
  rw [if_neg hn]

/-- N calls of `updateHist` whose parameters all route to the same
storage cell `b` add exactly N to that cell's count and change no other
cell of the addressed voxel's histogram. -/
theorem foldUpdate_props (x y z : ℕ) (params : List (ℚ × ℚ × ℚ)) (b : ℤ) :
    ∀ g : fusionData,
      (∀ pr ∈ params, targetBin g.bins pr.1 pr.2.1 pr.2.2 = b) →
      ((params.foldl (fun gg pr => gg.updateHistG x y z pr.1 pr.2.1 pr.2.2)
          g).voxel (g.idx x y z)).h b
        = (g.voxel (g.idx x y z)).h b + params.length ∧
      (∀ q : ℤ, q ≠ b →
        ((params.foldl
            (fun gg pr => gg.updateHistG x y z pr.1 pr.2.1 pr.2.2)
            g).voxel (g.idx x y z)).h q = (g.voxel (g.idx x y z)).h q) := by
  induction params with
  | nil =>
    intro g _
    exact ⟨by simp, fun q _ => rfl⟩
  | cons pr rest ih =>
    intro g hb
    have hbhead : targetBin g.bins pr.1 pr.2.1 pr.2.2 = b :=
      hb pr (List.mem_cons_self pr rest)
    have hbrest : ∀ pr' ∈ rest,
        targetBin (g.updateHistG x y z pr.1 pr.2.1 pr.2.2).bins
          pr'.1 pr'.2.1 pr'.2.2 = b := by
      intro pr' hpr'
      exact hb pr' (List.mem_cons_of_mem pr hpr')
    obtain ⟨ha, hq⟩ := ih (g.updateHistG x y z pr.1 pr.2.1 pr.2.2) hbrest
    have hvox := updateHistG_voxel_at g x y z pr.1 pr.2.1 pr.2.2
    constructor
    · rw [List.foldl_cons]
      have ha' :
          (((rest.foldl
              (fun gg pr => gg.updateHistG x y z pr.1 pr.2.1 pr.2.2)
              (g.updateHistG x y z pr.1 pr.2.1 pr.2.2)).voxel
              (g.idx x y z)).h b)
            = (((g.updateHistG x y z pr.1 pr.2.1 pr.2.2).voxel
                (g.idx x y z)).h b) + rest.length := ha
      rw [ha', hvox]
      simp only [hbhead ▸ hIncrAt_self (g.voxel (g.idx x y z)).h b]
      rw [hbhead, hIncrAt_self]
      simp [List.length_cons]
      omega
    · intro q hql
      rw [List.foldl_cons]
      have hq' :
          (((rest.foldl
              (fun gg pr => gg.updateHistG x y z pr.1 pr.2.1 pr.2.2)
              (g.updateHistG x y z pr.1 pr.2.1 pr.2.2)).voxel
              (g.idx x y z)).h q)
            = (((g.updateHistG x y z pr.1 pr.2.1 pr.2.2).voxel
                (g.idx x y z)).h q) := hq q hql
      rw [hq', hvox]
      exact hIncrAt_ne _ _ _ (hbhead ▸ hql)

/-- C8: `updateHist` is a pure increment: one call adds one to exactly
one storage cell of the addressed voxel's histogram and changes nothing
else (no other cell of that histogram, no other voxel, no `u`, `v` or `p`
field, no dimension); N calls whose signed distances all route to the
same cell add exactly N to that cell and leave all other cells
unchanged. -/
theorem updateHist_pure_increment (g : fusionData) (x y z : ℕ)
    (vd dep thr : ℚ) :
    ((g.updateHistG x y z vd dep thr).voxel (g.idx x y z)).h
        (targetBin g.bins vd dep thr)
      = (g.voxel (g.idx x y z)).h (targetBin g.bins vd dep thr) + 1 ∧
    (∀ q : ℤ, q ≠ targetBin g.bins vd dep thr →
      ((g.updateHistG x y z vd dep thr).voxel (g.idx x y z)).h q
        = (g.voxel (g.idx x y z)).h q) ∧
    ((g.updateHistG x y z vd dep thr).voxel (g.idx x y z)).u
      = (g.voxel (g.idx x y z)).u ∧
    ((g.updateHistG x y z vd dep thr).voxel (g.idx x y z)).v
      = (g.voxel (g.idx x y z)).v ∧
    ((g.updateHistG x y z vd dep thr).voxel (g.idx x y z)).p
      = (g.voxel (g.idx x y z)).p ∧
    (∀ n : ℕ, n ≠ g.idx x y z →
      (g.updateHistG x y z vd dep thr).voxel n = g.voxel n) ∧
    (g.updateHistG x y z vd dep thr).bins = g.bins ∧
    (g.updateHistG x y z vd dep thr).w = g.w ∧
    (g.updateHistG x y z vd dep thr).h = g.h ∧
    (g.updateHistG x y z vd dep thr).d = g.d ∧
    (∀ (params : List (ℚ × ℚ × ℚ)) (b : ℤ),
      (∀ pr ∈ params, targetBin g.bins pr.1 pr.2.1 pr.2.2 = b) →
      ((params.foldl (fun gg pr => gg.updateHistG x y z pr.1 pr.2.1 pr.2.2)
          g).voxel (g.idx x y z)).h b
        = (g.voxel (g.idx x y z)).h b + params.length ∧
      (∀ q : ℤ, q ≠ b →
        ((params.foldl
            (fun gg pr => gg.updateHistG x y z pr.1 pr.2.1 pr.2.2)
            g).voxel (g.idx x y z)).h q = (g.voxel (g.idx x y z)).h q)) := by
  have hvox := updateHistG_voxel_at g x y z vd dep thr
  refine ⟨?_, ?_, ?_, ?_, ?_, ?_, rfl, rfl, rfl, rfl, ?_⟩
  · rw [hvox]; exact hIncrAt_self _ _
  · intro q hq
    rw [hvox]; exact hIncrAt_ne _ _ _ hq
  · rw [hvox]
  · rw [hvox]
  · rw [hvox]
  · exact updateHistG_voxel_ne g x y z vd dep thr
  · intro params b hbp
    exact foldUpdate_props x y z params b g hbp

theorem updateHist_pure_increment_witness :
    ((gridZero.updateHistG 0 0 0 1 (1/2) (1/5)).voxel
        (gridZero.idx 0 0 0)).h 9
      = (gridZero.voxel (gridZero.idx 0 0 0)).h 9 + 1 ∧
    ((gridZero.updateHistG 0 0 0 1 (1/2) (1/5)).voxel
        (gridZero.idx 0 0 0)).h 0
      = (gridZero.voxel (gridZero.idx 0 0 0)).h 0 ∧
    ((([(1, 1/2, 1/5), (1, 1/2, 1/5)] : List (ℚ × ℚ × ℚ)).foldl
        (fun gg pr => gg.updateHistG 0 0 0 pr.1 pr.2.1 pr.2.2)
        gridZero).voxel (gridZero.idx 0 0 0)).h 9
      = (gridZero.voxel (gridZero.idx 0 0 0)).h 9 + 2 := by
  have htb : targetBin gridZero.bins 1 (1/2) (1/5) = 9 := by
    norm_num [targetBin, effThreshold, gridZero]
  have hmain := updateHist_pure_increment gridZero 0 0 0 1 (1/2) (1/5)
  refine ⟨?_, ?_, ?_⟩
  · have := hmain.1
    rwa [htb] at this
  · have := hmain.2.1 0 (by rw [htb]; norm_num)
    exact this
  · have hfold := hmain.2.2.2.2.2.2.2.2.2.2
      [(1, 1/2, 1/5), (1, 1/2, 1/5)] 9 ?_
    · simpa using hfold.1
    · intro pr hpr
      rcases List.mem_cons.mp hpr with rfl | hpr'
      · exact htb
      · rcases List.mem_cons.mp hpr' with rfl | hnil
        · exact htb
        · exact absurd hnil (List.not_mem_nil pr)

/-!  ## The proximal median -/

theorem fold_insert_elems_perm (M : List ℚ) :
    ∀ s : sortedHist,
      ((M.foldl (fun s v => s.insert v) s).elems).Perm (M ++ s.elems) := by
  induction M with
  | nil => intro s; simp
  | cons a rest ih =>
    intro s
    rw [List.foldl_cons]
    have h1 := ih (s.insert a)
    have h2 : (rest ++ (s.insert a).elems).Perm (rest ++ (a :: s.elems)) :=
      List.Perm.append_left rest (List.perm_orderedInsert _ a s.elems)
    have h3 : (rest ++ (a :: s.elems)).Perm (a :: (rest ++ s.elems)) :=
      List.perm_middle
    exact (h1.trans h2).trans h3

theorem fold_insert_elems_sorted (M : List ℚ) :
    ∀ s : sortedHist, s.elems.Sorted (· ≤ ·) →
      ((M.foldl (fun s v => s.insert v) s).elems).Sorted (· ≤ ·) := by
  induction M with
  | nil => intro s hs; exact hs
  | cons a rest ih =>
    intro s hs
    rw [List.foldl_cons]
    exact ih (s.insert a) (List.Sorted.orderedInsert a s.elems hs)

theorem fold_insert_eq_insertionSort (M : List ℚ) (s : sortedHist)
    (hs : s.elems.Sorted (· ≤ ·)) :
    (M.foldl (fun s v => s.insert v) s).elems
      = (M ++ s.elems).insertionSort (· ≤ ·) :=
  List.eq_of_perm_of_sorted
    ((fold_insert_elems_perm M s).trans
      (List.perm_insertionSort (· ≤ ·) (M ++ s.elems)).symm)
    (fold_insert_elems_sorted M s hs)
    (List.sorted_insertionSort (· ≤ ·) (M ++ s.elems))

theorem insertionSort_perm_congr (l₁ l₂ : List ℚ) (hp : l₁.Perm l₂) :
    l₁.insertionSort (· ≤ ·) = l₂.insertionSort (· ≤ ·) :=
  List.eq_of_perm_of_sorted
    ((List.perm_insertionSort (· ≤ ·) l₁).trans
      (hp.trans (List.perm_insertionSort (· ≤ ·) l₂).symm))
    (List.sorted_insertionSort (· ≤ ·) l₁)
    (List.sorted_insertionSort (· ≤ ·) l₂)

theorem sorted_replicate (n : ℕ) (u : ℚ) :
    (List.replicate n u).Sorted (· ≤ ·) := by
  induction n with
  | zero => simp
  | succ m ih =>
    rw [List.replicate_succ, List.sorted_cons]
    exact ⟨fun b hb => le_of_eq (List.eq_of_mem_replicate hb).symm, ih⟩

theorem getD_replicate (n i : ℕ) (u : ℚ) (hi : i < n) :
    (List.replicate n u).getD i 0 = u := by
  induction n generalizing i with
  | zero => omega
  | succ m ih =>
    rw [List.replicate_succ]
    cases i with
    | zero => rfl
    | succ k =>
      rw [List.getD_cons_succ]
      exact ih k (by omega)

theorem listMedian_replicate (n : ℕ) (u : ℚ) (hn : 0 < n) :
    listMedian (List.replicate n u) = u := by
  rw [listMedian, (sorted_replicate n u).insertionSort_eq]
  have hlen : (List.replicate n u).length = n := List.length_replicate n u
  rw [hlen]
  exact getD_replicate n (n / 2) u (by omega)

theorem Wi_zero (bins : ℕ) (h : ℤ → ℕ)
    (hz : ∀ pos : ℤ, 0 ≤ pos → pos < (bins : ℤ) → h pos = 0)
    (i : ℕ) (hi : i ≤ bins) : Wi bins h i = 0 := by
  rw [Wi]
  have hterm : ∀ j : ℕ, 1 ≤ j → j ≤ bins → (histGet h (j : ℤ) : ℤ) = 0 := by
    intro j hj1 hj2
    rw [histGet, hz ((j : ℤ) - 1) (by omega) (by omega)]
    rfl
  rw [Finset.sum_eq_zero, Finset.sum_eq_zero]
  · ring
  · intro j hj
    obtain ⟨h1, h2⟩ := Finset.mem_Icc.mp hj
    exact hterm j h1 (by omega)
  · intro j hj
    obtain ⟨h1, h2⟩ := Finset.mem_Icc.mp hj
    exact hterm j (by omega) h2

theorem candidates_zero (bins : ℕ) (h : ℤ → ℕ) (u tau lambda : ℚ)
    (hz : ∀ pos : ℤ, 0 ≤ pos → pos < (bins : ℤ) → h pos = 0) :
    candidates bins h u tau lambda = List.replicate (bins + 1) u := by
  rw [candidates, List.replicate_succ]
  congr 1
  refine List.eq_replicate_iff.mpr ⟨by simp, ?_⟩
  intro b hb
  simp only [List.mem_map, List.mem_range] at hb
  obtain ⟨j, hj, rfl⟩ := hb
  rw [Wi_zero bins h hz (j + 1) (by omega)]
  push_cast
  ring

/-- C1: for every voxel, `proxHist(u, x, y, z, tau, lambda)` returns the
exact median of the `bins+1` candidates `p_0 = u` and
`p_i = u + tau·lambda·W_i` (`i = 1 … bins`), with `W_i` the signed
histogram imbalance computed by `Wi`; in particular on an all-zero
histogram it returns `u` unchanged. -/
theorem proxHist_median (g : fusionData) (u : ℚ) (x y z : ℕ)
    (tau lambda : ℚ) :
    g.proxHist u x y z tau lambda
      = listMedian (candidates g.bins (g.hAt x y z) u tau lambda) ∧
    ((∀ pos : ℤ, 0 ≤ pos → pos < (g.bins : ℤ) → g.hAt x y z pos = 0) →
      g.proxHist u x y z tau lambda = u) := by
  have hmain : g.proxHist u x y z tau lambda
      = listMedian (candidates g.bins (g.hAt x y z) u tau lambda) := by
    have h1 : g.proxHist u x y z tau lambda
        = (((List.range g.bins).map
              (fun j => pi g.bins (g.hAt x y z) u (j + 1) tau lambda)).foldl
            (fun s v => s.insert v)
            (sortedHist.insert
              { centers := (List.range g.bins).map (binCentersArr g.bins)
                elems := [] } u)).median := by
      simp only [fusionData.proxHist, List.foldl_map]
    have h2 : (((List.range g.bins).map
            (fun j => pi g.bins (g.hAt x y z) u (j + 1) tau lambda)).foldl
          (fun s v => s.insert v)
          (sortedHist.insert
            { centers := (List.range g.bins).map (binCentersArr g.bins)
              elems := [] } u)).elems
        = (((List.range g.bins).map
              (fun j => pi g.bins (g.hAt x y z) u (j + 1) tau lambda))
            ++ [u]).insertionSort (· ≤ ·) :=
      fold_insert_eq_insertionSort _ _ (List.sorted_singleton u)
    have h4 : u :: ((List.range g.bins).map
          (fun j => pi g.bins (g.hAt x y z) u (j + 1) tau lambda))
        = candidates g.bins (g.hAt x y z) u tau lambda := rfl
    have h3 : (((List.range g.bins).map
            (fun j => pi g.bins (g.hAt x y z) u (j + 1) tau lambda))
          ++ [u]).insertionSort (· ≤ ·)
        = (candidates g.bins (g.hAt x y z) u tau lambda).insertionSort
            (· ≤ ·) := by
      apply insertionSort_perm_congr
      rw [← h4]
      exact List.perm_append_singleton u _
    rw [h1, sortedHist.median, h2, h3, listMedian,
      List.length_insertionSort]
  refine ⟨hmain, ?_⟩
  intro hz
  rw [hmain, candidates_zero g.bins (g.hAt x y z) u tau lambda hz,
    listMedian_replicate (g.bins + 1) u (by omega)]

theorem proxHist_median_witness : gridZero.proxHist 5 0 0 0 1 1 = 5 :=
  (proxHist_median gridZero 5 0 0 0 1 1).2 (fun _ _ _ => rfl)

/-!  ## Boundary behaviour of the differential operators -/

/-- C4: at the last index along any axis the corresponding component of
the forward gradient (of `u` and of `v`) is zero regardless of the field
values, and at index `0` along any axis the backward divergence omits
that axis's backward term (equivalent to treating the missing neighbour's
component as `0`). -/
theorem grad_div_boundary (g : fusionData) (x y z : ℕ) :
    (0 < g.w → x = g.w - 1 →
      (g.gradUFwd x y z).x = 0 ∧ (g.gradVFwd x y z).x = 0) ∧
    (0 < g.h → y = g.h - 1 →
      (g.gradUFwd x y z).y = 0 ∧ (g.gradVFwd x y z).y = 0) ∧
    (0 < g.d → z = g.d - 1 →
      (g.gradUFwd x y z).z = 0 ∧ (g.gradVFwd x y z).z = 0) ∧
    (x = 0 → g.divPBwd x y z
        = (g.pAt x y z).x + (g.pAt x y z).y + (g.pAt x y z).z
          - (if 0 < y then (g.pAt x (y-1) z).y else 0)
          - (if 0 < z then (g.pAt x y (z-1)).z else 0)) ∧
    (y = 0 → g.divPBwd x y z
        = (g.pAt x y z).x + (g.pAt x y z).y + (g.pAt x y z).z
          - (if 0 < x then (g.pAt (x-1) y z).x else 0)
          - (if 0 < z then (g.pAt x y (z-1)).z else 0)) ∧
    (z = 0 → g.divPBwd x y z
        = (g.pAt x y z).x + (g.pAt x y z).y + (g.pAt x y z).z
          - (if 0 < x then (g.pAt (x-1) y z).x else 0)
          - (if 0 < y then (g.pAt x (y-1) z).y else 0)) := by
  refine ⟨?_, ?_, ?_, ?_, ?_, ?_⟩
  · intro hw hx
    constructor
    · show (if x < g.w - 1 then g.uAt (x+1) y z - g.uAt x y z else 0) = 0
      rw [if_neg (by omega)]
    · show (if x < g.w - 1 then g.vAt (x+1) y z - g.vAt x y z else 0) = 0
      rw [if_neg (by omega)]
  · intro hh hy
    constructor
    · show (if y < g.h - 1 then g.uAt x (y+1) z - g.uAt x y z else 0) = 0
      rw [if_neg (by omega)]
    · show (if y < g.h - 1 then g.vAt x (y+1) z - g.vAt x y z else 0) = 0
      rw [if_neg (by omega)]
  · intro hd hz
    constructor
    · show (if z < g.d - 1 then g.uAt x y (z+1) - g.uAt x y z else 0) = 0
      rw [if_neg (by omega)]
    · show (if z < g.d - 1 then g.vAt x y (z+1) - g.vAt x y z else 0) = 0
      rw [if_neg (by omega)]
  · intro hx
    subst hx
    rw [fusionData.divPBwd, if_neg (lt_irrefl 0)]
    ring
  · intro hy
    subst hy
    rw [fusionData.divPBwd, if_neg (lt_irrefl 0)]
    ring
  · intro hz
    subst hz
    rw [fusionData.divPBwd, if_neg (lt_irrefl 0)]
    ring

theorem grad_div_boundary_witness :
    (gridVals.gradUFwd 1 1 1).x = 0 ∧ (gridVals.gradUFwd 1 1 1).y = 0 ∧
    (gridVals.gradUFwd 1 1 1).z = 0 ∧ (gridVals.gradVFwd 1 1 1).x = 0 ∧
    gridVals.divPBwd 0 1 1
      = (gridVals.pAt 0 1 1).x + (gridVals.pAt 0 1 1).y
          + (gridVals.pAt 0 1 1).z
        - (if 0 < 1 then (gridVals.pAt 0 (1-1) 1).y else 0)
        - (if 0 < 1 then (gridVals.pAt 0 1 (1-1)).z else 0) := by
  have h := grad_div_boundary gridVals 1 1 1
  have hd := grad_div_boundary gridVals 0 1 1
  exact ⟨(h.1 (by decide) rfl).1, (h.2.1 (by decide) rfl).1,
    (h.2.2.1 (by decide) rfl).1, (h.1 (by decide) rfl).2,
    hd.2.2.2.1 rfl⟩

/-!  ## Transfer dispatch -/

/-- C9: `copyFrom` and `copyTo` select the transfer path from the store's
storage residency — `Host2DeviceCopy` for `copyFrom` and
`Device2HostCopy` for `copyTo` when the store is device-resident, and
`Host2HostCopy` otherwise — and return the backend's status code
verbatim. -/
theorem copy_dispatch {E P : Type} (onDevice : Bool) (be : MemBackend E P)
    (voxelPtr : P) (pitch : ℕ) (data : P) (npitch : ℕ) (w h d : ℕ) :
    (onDevice = true →
      copyFrom onDevice be voxelPtr pitch data npitch w h d
        = be.Host2DeviceCopy voxelPtr pitch data npitch w h d ∧
      copyTo onDevice be voxelPtr pitch data npitch w h d
        = be.Device2HostCopy data npitch voxelPtr pitch w h d) ∧
    (onDevice = false →
      copyFrom onDevice be voxelPtr pitch data npitch w h d
        = be.Host2HostCopy voxelPtr pitch data npitch w h d ∧
      copyTo onDevice be voxelPtr pitch data npitch w h d
        = be.Host2HostCopy data npitch voxelPtr pitch w h d) := by
  constructor
  · intro hdev
    subst hdev
    exact ⟨rfl, rfl⟩
  · intro hdev
    subst hdev
    exact ⟨rfl, rfl⟩

theorem copy_dispatch_witness :
    copyFrom true beNum 0 0 0 0 1 1 1 = 1 ∧
    copyTo true beNum 0 0 0 0 1 1 1 = 2 ∧
    copyFrom false beNum 0 0 0 0 1 1 1 = 3 ∧
    copyTo false beNum 0 0 0 0 1 1 1 = 3 := by
  have ht := (copy_dispatch true beNum 0 0 0 0 1 1 1).1 rfl
  have hf := (copy_dispatch false beNum 0 0 0 0 1 1 1).2 rfl
  exact ⟨ht.1, ht.2, hf.1, hf.2⟩

/-!  ## Unit-ball projection -/

/-- C7: `projectUnitBall(p)` equals `p / max(1, ‖p‖₂)`; it returns `p`
unchanged when `‖p‖₂ ≤ 1`, and when `‖p‖₂ > 1` it returns a vector of
Euclidean norm exactly `1` (in exact real arithmetic) that is a positive
scalar multiple of the input. -/
theorem projectUnitBall_props (v : vec3 ℝ) :
    projectUnitBall v
      = { x := v.x / max 1 (norm3 v), y := v.y / max 1 (norm3 v)
          z := v.z / max 1 (norm3 v) } ∧
    (norm3 v ≤ 1 → projectUnitBall v = v) ∧
    (1 < norm3 v →
      norm3 (projectUnitBall v) = 1 ∧
      ∃ c : ℝ, 0 < c ∧ projectUnitBall v
        = { x := c * v.x, y := c * v.y, z := c * v.z }) := by
  have hpb : projectUnitBall v
      = { x := v.x / max 1 (norm3 v), y := v.y / max 1 (norm3 v)
          z := v.z / max 1 (norm3 v) } := rfl
  refine ⟨hpb, ?_, ?_⟩
  · intro hle
    rw [hpb, max_eq_left hle]
    simp
  · intro hlt
    have hs : (0 : ℝ) ≤ v.x * v.x + v.y * v.y + v.z * v.z :=
      add_nonneg (add_nonneg (mul_self_nonneg v.x) (mul_self_nonneg v.y))
        (mul_self_nonneg v.z)
    have hn0 : 0 < norm3 v := lt_trans zero_lt_one hlt
    have hmax : max 1 (norm3 v) = norm3 v := max_eq_right (le_of_lt hlt)
    have hnn : norm3 v * norm3 v = v.x * v.x + v.y * v.y + v.z * v.z :=
      Real.mul_self_sqrt hs
    constructor
    · rw [hpb, hmax]
      show Real.sqrt ((v.x / norm3 v) * (v.x / norm3 v)
        + (v.y / norm3 v) * (v.y / norm3 v)
        + (v.z / norm3 v) * (v.z / norm3 v)) = 1
      have hcalc : (v.x / norm3 v) * (v.x / norm3 v)
          + (v.y / norm3 v) * (v.y / norm3 v)
          + (v.z / norm3 v) * (v.z / norm3 v) = 1 := by
        rw [div_mul_div_comm, div_mul_div_comm, div_mul_div_comm,
          div_add_div_same, div_add_div_same, ← hnn]
        exact div_self (mul_ne_zero hn0.ne' hn0.ne')
      rw [hcalc, Real.sqrt_one]
    · refine ⟨(max 1 (norm3 v))⁻¹, ?_, ?_⟩
      · rw [hmax]
        exact inv_pos.mpr hn0
      · rw [hpb]
        congr 1 <;> rw [div_eq_inv_mul]

theorem projectUnitBall_props_witness :
    projectUnitBall ⟨1, 0, 0⟩ = (⟨1, 0, 0⟩ : vec3 ℝ) ∧
    norm3 (projectUnitBall ⟨2, 2, 1⟩) = 1 := by
  have h1 : norm3 (⟨1, 0, 0⟩ : vec3 ℝ) = 1 := by
    show Real.sqrt ((1 : ℝ) * 1 + 0 * 0 + 0 * 0) = 1
    norm_num
  have h9 : norm3 (⟨2, 2, 1⟩ : vec3 ℝ) = 3 := by
    show Real.sqrt ((2 : ℝ) * 2 + 2 * 2 + 1 * 1) = 3
    rw [show (2 : ℝ) * 2 + 2 * 2 + 1 * 1 = 3 ^ 2 by norm_num]
    exact Real.sqrt_sq (by norm_num)
  constructor
  · exact (projectUnitBall_props ⟨1, 0, 0⟩).2.1 (le_of_eq h1)
  · exact ((projectUnitBall_props ⟨2, 2, 1⟩).2.2 (by rw [h9]; norm_num)).1

/-!  ## Summation by parts and the gradient/divergence pairing -/

/-- 1-D summation by parts for the forward-difference/backward-difference
pair, valid when the dual sequence vanishes at the upper boundary. -/
theorem sbp (n : ℕ) (a b : ℕ → ℚ) (hb : b (n - 1) = 0) :
    ∑ i ∈ Finset.range n, (if i < n - 1 then a (i + 1) - a i else 0) * b i
      = -∑ i ∈ Finset.range n,
          a i * (b i - if 0 < i then b (i - 1) else 0) := by
  cases n with
  | zero => simp
  | succ m =>
    have hbm : b m = 0 := hb
    have hL : ∑ i ∈ Finset.range (m + 1),
        (if i < m + 1 - 1 then a (i + 1) - a i else 0) * b i
        = ∑ i ∈ Finset.range m, (a (i + 1) * b i - a i * b i) := by
      rw [Finset.sum_range_succ, if_neg (by omega), zero_mul, add_zero]
      apply Finset.sum_congr rfl
      intro i hi
      rw [if_pos (by have := Finset.mem_range.mp hi; omega)]
      ring
    have hR2 : ∑ i ∈ Finset.range (m + 1),
        a i * (if 0 < i then b (i - 1) else 0)
        = ∑ i ∈ Finset.range m, a (i + 1) * b i := by
      rw [Finset.sum_range_succ']
      simp [Nat.succ_sub_one]
    have hsplit : ∑ i ∈ Finset.range (m + 1),
        a i * (b i - if 0 < i then b (i - 1) else 0)
        = (∑ i ∈ Finset.range (m + 1), a i * b i)
          - ∑ i ∈ Finset.range (m + 1),
              a i * (if 0 < i then b (i - 1) else 0) := by
      rw [← Finset.sum_sub_distrib]
      apply Finset.sum_congr rfl
      intro i _
      ring
    rw [hL, hsplit, hR2, Finset.sum_range_succ, hbm, mul_zero, add_zero,
      Finset.sum_sub_distrib]
    ring

theorem sbp3x (w h d : ℕ) (U P : ℕ → ℕ → ℕ → ℚ)
    (hbx : ∀ y z : ℕ, y < h → z < d → P (w - 1) y z = 0) :
    (∑ z ∈ Finset.range d, ∑ y ∈ Finset.range h, ∑ x ∈ Finset.range w,
      (if x < w - 1 then U (x + 1) y z - U x y z else 0) * P x y z)
      = -∑ z ∈ Finset.range d, ∑ y ∈ Finset.range h, ∑ x ∈ Finset.range w,
          U x y z * (P x y z - if 0 < x then P (x - 1) y z else 0) := by
  rw [← Finset.sum_neg_distrib]
  apply Finset.sum_congr rfl
  intro z hz'
  rw [← Finset.sum_neg_distrib]
  apply Finset.sum_congr rfl
  intro y hy'
  exact sbp w (fun i => U i y z) (fun i => P i y z)
    (hbx y z (Finset.mem_range.mp hy') (Finset.mem_range.mp hz'))

theorem sbp3y (w h d : ℕ) (U P : ℕ → ℕ → ℕ → ℚ)
    (hby : ∀ x z : ℕ, x < w → z < d → P x (h - 1) z = 0) :
    (∑ z ∈ Finset.range d, ∑ y ∈ Finset.range h, ∑ x ∈ Finset.range w,
      (if y < h - 1 then U x (y + 1) z - U x y z else 0) * P x y z)
      = -∑ z ∈ Finset.range d, ∑ y ∈ Finset.range h, ∑ x ∈ Finset.range w,
          U x y z * (P x y z - if 0 < y then P x (y - 1) z else 0) := by
  have hswapL : (∑ z ∈ Finset.range d, ∑ y ∈ Finset.range h,
      ∑ x ∈ Finset.range w,
      (if y < h - 1 then U x (y + 1) z - U x y z else 0) * P x y z)
      = ∑ z ∈ Finset.range d, ∑ x ∈ Finset.range w, ∑ y ∈ Finset.range h,
        (if y < h - 1 then U x (y + 1) z - U x y z else 0) * P x y z :=
    Finset.sum_congr rfl (fun _ _ => Finset.sum_comm)
  have hswapR : (∑ z ∈ Finset.range d, ∑ y ∈ Finset.range h,
      ∑ x ∈ Finset.range w,
      U x y z * (P x y z - if 0 < y then P x (y - 1) z else 0))
      = ∑ z ∈ Finset.range d, ∑ x ∈ Finset.range w, ∑ y ∈ Finset.range h,
        U x y z * (P x y z - if 0 < y then P x (y - 1) z else 0) :=
    Finset.sum_congr rfl (fun _ _ => Finset.sum_comm)
  rw [hswapL, hswapR, ← Finset.sum_neg_distrib]
  apply Finset.sum_congr rfl
  intro z hz'
  rw [← Finset.sum_neg_distrib]
  apply Finset.sum_congr rfl
  intro x hx'
  exact sbp h (fun j => U x j z) (fun j => P x j z)
    (hby x z (Finset.mem_range.mp hx') (Finset.mem_range.mp hz'))

theorem sbp3z (w h d : ℕ) (U P : ℕ → ℕ → ℕ → ℚ)
    (hbz : ∀ x y : ℕ, x < w → y < h → P x y (d - 1) = 0) :
    (∑ z ∈ Finset.range d, ∑ y ∈ Finset.range h, ∑ x ∈ Finset.range w,
      (if z < d - 1 then U x y (z + 1) - U x y z else 0) * P x y z)
      = -∑ z ∈ Finset.range d, ∑ y ∈ Finset.range h, ∑ x ∈ Finset.range w,
          U x y z * (P x y z - if 0 < z then P x y (z - 1) else 0) := by
  have hL1 : (∑ z ∈ Finset.range d, ∑ y ∈ Finset.range h,
      ∑ x ∈ Finset.range w,
      (if z < d - 1 then U x y (z + 1) - U x y z else 0) * P x y z)
      = ∑ y ∈ Finset.range h, ∑ z ∈ Finset.range d, ∑ x ∈ Finset.range w,
        (if z < d - 1 then U x y (z + 1) - U x y z else 0) * P x y z :=
    Finset.sum_comm
  have hL2 : (∑ y ∈ Finset.range h, ∑ z ∈ Finset.range d,
      ∑ x ∈ Finset.range w,
      (if z < d - 1 then U x y (z + 1) - U x y z else 0) * P x y z)
      = ∑ y ∈ Finset.range h, ∑ x ∈ Finset.range w, ∑ z ∈ Finset.range d,
        (if z < d - 1 then U x y (z + 1) - U x y z else 0) * P x y z :=
    Finset.sum_congr rfl (fun _ _ => Finset.sum_comm)
  have hR1 : (∑ z ∈ Finset.range d, ∑ y ∈ Finset.range h,
      ∑ x ∈ Finset.range w,
      U x y z * (P x y z - if 0 < z then P x y (z - 1) else 0))
      = ∑ y ∈ Finset.range h, ∑ z ∈ Finset.range d, ∑ x ∈ Finset.range w,
        U x y z * (P x y z - if 0 < z then P x y (z - 1) else 0) :=
    Finset.sum_comm
  have hR2 : (∑ y ∈ Finset.range h, ∑ z ∈ Finset.range d,
      ∑ x ∈ Finset.range w,
      U x y z * (P x y z - if 0 < z then P x y (z - 1) else 0))
      = ∑ y ∈ Finset.range h, ∑ x ∈ Finset.range w, ∑ z ∈ Finset.range d,
        U x y z * (P x y z - if 0 < z then P x y (z - 1) else 0) :=
    Finset.sum_congr rfl (fun _ _ => Finset.sum_comm)
  rw [hL1, hL2, hR1, hR2, ← Finset.sum_neg_distrib]
  apply Finset.sum_congr rfl
  intro y hy'
  rw [← Finset.sum_neg_distrib]
  apply Finset.sum_congr rfl
  intro x hx'
  exact sbp d (fun k => U x y k) (fun k => P x y k)
    (hbz x y (Finset.mem_range.mp hx') (Finset.mem_range.mp hy'))

/-- C3 counterexample: on the 1×1×1 store `gridOne` (`u = 1`,
`p = (1,1,1)`) the pairing `⟨∇u, p⟩` is `0` while `-⟨u, div p⟩` is `-3`,
so the operators of fusion.h are not adjoint for every grid with fields
`u` and `p`: `divPBwd` keeps the in-voxel component of `p` at the upper
lattice boundary where the forward gradient is clamped to zero. -/
theorem adjoint_fails : dotGradUP gridOne ≠ - sumUDivP gridOne := by
  have h1 : dotGradUP gridOne = 0 := by
    show (∑ z ∈ Finset.range 1, ∑ y ∈ Finset.range 1,
        ∑ x ∈ Finset.range 1,
        dot3 (gridOne.gradUFwd x y z) (gridOne.pAt x y z)) = 0
    rw [Finset.sum_range_one, Finset.sum_range_one, Finset.sum_range_one]
    norm_num [dot3, fusionData.gradUFwd, fusionData.uAt, fusionData.pAt,
      fusionData.idx, gridOne]
  have h2 : sumUDivP gridOne = 3 := by
    show (∑ z ∈ Finset.range 1, ∑ y ∈ Finset.range 1,
        ∑ x ∈ Finset.range 1,
        gridOne.uAt x y z * gridOne.divPBwd x y z) = 3
    rw [Finset.sum_range_one, Finset.sum_range_one, Finset.sum_range_one]
    norm_num [fusionData.divPBwd, fusionData.uAt, fusionData.pAt,
      fusionData.idx, gridOne]
  rw [h1, h2]
  norm_num

/-- C3 (amended): the forward-gradient/backward-divergence pair of
fusion.h satisfies `⟨∇u, p⟩ = -⟨u, div p⟩` for every grid whose dual
field has a vanishing component on the upper boundary of the component's
axis (`p.x = 0` at `x = w-1`, `p.y = 0` at `y = h-1`, `p.z = 0` at
`z = d-1`) — the invariant the solver's dual update preserves, since the
paired gradient component is clamped to zero there. -/
theorem grad_div_adjoint (g : fusionData)
    (hbx : ∀ y z : ℕ, y < g.h → z < g.d → (g.pAt (g.w - 1) y z).x = 0)
    (hby : ∀ x z : ℕ, x < g.w → z < g.d → (g.pAt x (g.h - 1) z).y = 0)
    (hbz : ∀ x y : ℕ, x < g.w → y < g.h → (g.pAt x y (g.d - 1)).z = 0) :
    dotGradUP g = - sumUDivP g := by
  have hX : (∑ z ∈ Finset.range g.d, ∑ y ∈ Finset.range g.h,
      ∑ x ∈ Finset.range g.w,
      (if x < g.w - 1 then g.uAt (x + 1) y z - g.uAt x y z else 0)
        * (g.pAt x y z).x)
      = -∑ z ∈ Finset.range g.d, ∑ y ∈ Finset.range g.h,
          ∑ x ∈ Finset.range g.w,
          g.uAt x y z
            * ((g.pAt x y z).x
              - if 0 < x then (g.pAt (x - 1) y z).x else 0) :=
    sbp3x g.w g.h g.d (fun x y z => g.uAt x y z)
      (fun x y z => (g.pAt x y z).x) hbx
  have hY : (∑ z ∈ Finset.range g.d, ∑ y ∈ Finset.range g.h,
      ∑ x ∈ Finset.range g.w,
      (if y < g.h - 1 then g.uAt x (y + 1) z - g.uAt x y z else 0)
        * (g.pAt x y z).y)
      = -∑ z ∈ Finset.range g.d, ∑ y ∈ Finset.range g.h,
          ∑ x ∈ Finset.range g.w,
          g.uAt x y z
            * ((g.pAt x y z).y
              - if 0 < y then (g.pAt x (y - 1) z).y else 0) :=
    sbp3y g.w g.h g.d (fun x y z => g.uAt x y z)
      (fun x y z => (g.pAt x y z).y) hby
  have hZ : (∑ z ∈ Finset.range g.d, ∑ y ∈ Finset.range g.h,
      ∑ x ∈ Finset.range g.w,
      (if z < g.d - 1 then g.uAt x y (z + 1) - g.uAt x y z else 0)
        * (g.pAt x y z).z)
      = -∑ z ∈ Finset.range g.d, ∑ y ∈ Finset.range g.h,
          ∑ x ∈ Finset.range g.w,
          g.uAt x y z
            * ((g.pAt x y z).z
              - if 0 < z then (g.pAt x y (z - 1)).z else 0) :=
    sbp3z g.w g.h g.d (fun x y z => g.uAt x y z)
      (fun x y z => (g.pAt x y z).z) hbz
  have hdiv : (∑ z ∈ Finset.range g.d, ∑ y ∈ Finset.range g.h,
      ∑ x ∈ Finset.range g.w,
      g.uAt x y z * ((g.pAt x y z).x + (g.pAt x y z).y + (g.pAt x y z).z
        - (if 0 < x then (g.pAt (x - 1) y z).x else 0)
        - (if 0 < y then (g.pAt x (y - 1) z).y else 0)
        - (if 0 < z then (g.pAt x y (z - 1)).z else 0)))
      = ∑ z ∈ Finset.range g.d, ∑ y ∈ Finset.range g.h,
          ∑ x ∈ Finset.range g.w,
          (g.uAt x y z
              * ((g.pAt x y z).x
                - if 0 < x then (g.pAt (x - 1) y z).x else 0)
            + g.uAt x y z
              * ((g.pAt x y z).y
                - if 0 < y then (g.pAt x (y - 1) z).y else 0)
            + g.uAt x y z
              * ((g.pAt x y z).z
                - if 0 < z then (g.pAt x y (z - 1)).z else 0)) := by
    apply Finset.sum_congr rfl
    intro z _
    apply Finset.sum_congr rfl
    intro y _
    apply Finset.sum_congr rfl
    intro x _
    ring
  show (∑ z ∈ Finset.range g.d, ∑ y ∈ Finset.range g.h,
      ∑ x ∈ Finset.range g.w,
      ((if x < g.w - 1 then g.uAt (x + 1) y z - g.uAt x y z else 0)
          * (g.pAt x y z).x
        + (if y < g.h - 1 then g.uAt x (y + 1) z - g.uAt x y z else 0)
          * (g.pAt x y z).y
        + (if z < g.d - 1 then g.uAt x y (z + 1) - g.uAt x y z else 0)
          * (g.pAt x y z).z))
      = -∑ z ∈ Finset.range g.d, ∑ y ∈ Finset.range g.h,
          ∑ x ∈ Finset.range g.w,
          g.uAt x y z
            * ((g.pAt x y z).x + (g.pAt x y z).y + (g.pAt x y z).z
              - (if 0 < x then (g.pAt (x - 1) y z).x else 0)
              - (if 0 < y then (g.pAt x (y - 1) z).y else 0)
              - (if 0 < z then (g.pAt x y (z - 1)).z else 0))
  rw [hdiv]
  simp only [Finset.sum_add_distrib]
  rw [hX, hY, hZ]
  ring

theorem grad_div_adjoint_witness : dotGradUP gridW2 = - sumUDivP gridW2 := by
  apply grad_div_adjoint
  · intro y z hy' hz'
    have hy1 : y < 1 := hy'
    have hz1 : z < 1 := hz'
    obtain rfl : y = 0 := by omega
    obtain rfl : z = 0 := by omega
    rfl
  · intro x z _ _
    rfl
  · intro x y _ _
    rfl

end Fusion
